import Mathlib

/-!
Verification of the PageRank engine in `Ai_Project/pagerank.py`.

The Python module works on dictionaries mapping page names to sets of link
targets.  We embed it shallowly:

* a page is an opaque identifier, modelled as `Nat`;
* a Python `dict` is an association list (keys in insertion order);
* floating point numbers are modelled by exact rationals `ℚ`, the usual
  idealisation for claims phrased "within floating-point rounding";
* a Python `KeyError` is modelled by `Option`: `none` is the raised error;
* the two sources of randomness of `sample_pagerank` (`random.choice` for
  the start page, `random.choices` for each transition draw) become explicit
  parameters: a start page and a function giving, at each step index, the
  page drawn from the distribution built at that step.  Quantifying over
  these parameters quantifies over every outcome of the random draws;
* the `while` loop of `iterate_pagerank` is embedded with explicit fuel
  (`none` = fuel exhausted before the convergence test succeeded), so that
  termination becomes the statement that some fuel suffices.
-/

abbrev Page := Nat

/-- A Python dict `page -> set of pages` (the corpus): keys in insertion
order, each value the list of distinct link targets. -/
abbrev Corpus := List (Page × List Page)

/-- A Python dict `page -> float` (a distribution or rank assignment). -/
abbrev PDist := List (Page × ℚ)

/-- The key list of a dict, in order. -/
def keys (c : Corpus) : List Page := c.map Prod.fst

/-- Dict lookup `corpus[page]`: `none` is Python's `KeyError`. -/
def lookupLinks : Corpus → Page → Option (List Page)
  | [], _ => none
  | kv :: rest, p => if kv.1 = p then some kv.2 else lookupLinks rest p

/-- Dict lookup in a numeric dict; total with junk value `0`, used only at
keys that are present. -/
def getV : PDist → Page → ℚ
  | [], _ => 0
  | kv :: rest, p => if kv.1 = p then kv.2 else getV rest p

/-- Python `dist[p] += v`: `none` (KeyError) when `p` is not a key. -/
def addToKey (l : PDist) (p : Page) (v : ℚ) : Option PDist :=
  if p ∈ l.map Prod.fst then
    some (l.map (fun kv => if kv.1 = p then (kv.1, kv.2 + v) else kv))
  else none

/-- Sum of the values of a numeric dict. -/
def distSum (l : PDist) : ℚ := (l.map Prod.snd).sum

/-- The invariants of §3 of the spec for a Link Graph: keys are unique
(a dict), every link list is a set (no duplicates), and every link target
is itself a key (closed universe). -/
def ValidCorpus (c : Corpus) : Prop :=
  (keys c).Nodup ∧ ∀ kv ∈ c, kv.2.Nodup ∧ ∀ q ∈ kv.2, q ∈ keys c

instance : DecidablePred ValidCorpus := fun c => by
  unfold ValidCorpus; infer_instance

/-- `transition_model(corpus, page, damping_factor)` from `pagerank.py`
lines 62-85.  `links = corpus[page]` raises KeyError (`none`) when `page`
is not a key; if `links` is empty every page gets `1/len(corpus)`;
otherwise every page gets `(1-damping_factor)/len(corpus)` and then each
link target gets `damping_factor/len(links)` added (a KeyError if a target
is not a key of `dist`). -/
def transition_model (corpus : Corpus) (page : Page) (damping_factor : ℚ) :
    Option PDist :=
  match lookupLinks corpus page with
  | none => none
  | some links =>
    if links.length = 0 then
      some (corpus.map (fun kv => (kv.1, 1 / (corpus.length : ℚ))))
    else
      let base : PDist :=
        corpus.map (fun kv => (kv.1, (1 - damping_factor) / (corpus.length : ℚ)))
      links.foldlM
        (fun dist link => addToKey dist link (damping_factor / (links.length : ℚ)))
        base

/-- The loop `for i in range(1, n)` of `sample_pagerank` (lines 103-106):
`k` iterations remain, `i` is the step index, `p` the current
`sample_page`, `cnt` the visit-counter dict.  Each iteration increments
the current page's counter, builds the transition model, and moves to the
page drawn from it. -/
def sampleLoop (corpus : Corpus) (damping_factor : ℚ) (draws : ℕ → PDist → Page) :
    ℕ → ℕ → Page → PDist → Option (Page × PDist)
  | 0, _, p, cnt => some (p, cnt)
  | k + 1, i, p, cnt => do
    let cnt' ← addToKey cnt p 1
    let pd ← transition_model corpus p damping_factor
    sampleLoop corpus damping_factor draws k (i + 1) (draws i pd) cnt'

/-- `sample_pagerank(corpus, damping_factor, n)` from `pagerank.py`
lines 87-112, with the random choices made explicit: `start` is the page
returned by `random.choice`, and `draws i pd` the page returned by
`random.choices` at step `i` from the distribution `pd`.  Counters start
at 0 for every key, the loop body runs `n - 1` times, and every counter
is divided by `n` at the end. -/
def sample_pagerank (corpus : Corpus) (damping_factor : ℚ) (n : ℕ)
    (start : Page) (draws : ℕ → PDist → Page) : Option PDist := do
  let init : PDist := corpus.map (fun kv => (kv.1, 0))
  let (_, cnt) ← sampleLoop corpus damping_factor draws (n - 1) 1 start init
  some (cnt.map (fun kv => (kv.1, kv.2 / (n : ℚ))))

/-- One synchronous round of `iterate_pagerank` (lines 136-146): the new
rank of `current_page`, computed from the full previous snapshot `pr`.
The inner `for page in corpus` loop accumulates `sum`, adding
`pr[page]/len(corpus[page])` when `current_page ∈ corpus[page]` and
`pr[page]/N` when `corpus[page]` is empty; the result is
`(1-D)/N + D*sum`. -/
def iterate_round (corpus : Corpus) (D : ℚ) (pr : Page → ℚ) : Page → ℚ :=
  fun current_page =>
    let N : ℚ := (corpus.length : ℚ)
    let s := corpus.foldl
      (fun s kv =>
        let s := if current_page ∈ kv.2 then s + pr kv.1 / (kv.2.length : ℚ) else s
        if kv.2 = [] then s + pr kv.1 / N else s)
      0
    (1 - D) / N + D * s

/-- The dict `calculated_pr` built by the round of lines 136-146: one
entry per key of the corpus, in corpus order, holding the new rank of
that key computed by `iterate_round` from the previous snapshot `pr`.
All of `calculated_pr` is computed before `page_rank` is overwritten, so
the whole round reads only the previous snapshot (synchronous update). -/
def calculated (corpus : Corpus) (D : ℚ) (pr : PDist) : PDist :=
  corpus.map (fun kv => (kv.1, iterate_round corpus D (getV pr) kv.1))

/-- The convergence test of lines 148-153: no key's rank moved by more
than `0.001` between the previous snapshot `pr` and the new one. -/
def converged (corpus : Corpus) (pr new : PDist) : Bool :=
  (keys corpus).all (fun p => decide (|getV pr p - getV new p| ≤ 1 / 1000))

/-- The `while condition` loop of lines 135-153 with explicit fuel: each
round computes the full new snapshot from the previous one, stops and
returns the new snapshot when every key moved by at most `0.001`, and
otherwise continues from the new snapshot. -/
def iterate_loop (corpus : Corpus) (D : ℚ) : ℕ → PDist → Option PDist
  | 0, _ => none
  | f + 1, pr =>
    let new := calculated corpus D pr
    if converged corpus pr new then some new
    else iterate_loop corpus D f new

/-- `iterate_pagerank(corpus, damping_factor)` from lines 114-155: ranks
start at `1/N` on every key and the loop runs to convergence (with fuel). -/
def iterate_pagerank (corpus : Corpus) (D : ℚ) (fuel : ℕ) :
    Option PDist :=
  iterate_loop corpus D fuel
    (corpus.map (fun kv => (kv.1, 1 / (corpus.length : ℚ))))

/-- Sum of the ranks of the keys of the corpus. -/
def rankSum (corpus : Corpus) (pr : Page → ℚ) : ℚ :=
  (corpus.map (fun kv => pr kv.1)).sum

/-- The pages `Q` of the corpus whose link set contains `P` (the spec's
"pages Q linking to P"). -/
def linkers (c : Corpus) (P : Page) : Corpus :=
  c.filter (fun kv => decide (P ∈ kv.2))

/-- The pages of the corpus with no outgoing links (the spec's dangling
pages). -/
def danglers (c : Corpus) : Corpus :=
  c.filter (fun kv => kv.2.isEmpty)

/-- `coefficient c P kv` is the weight with which the previous rank of
`kv.1` enters the new rank of `P`. -/
def coefficient (c : Corpus) (P : Page) (kv : Page × List Page) : ℚ :=
  (if P ∈ kv.2 then 1 / (kv.2.length : ℚ) else 0)
  + (if kv.2 = [] then 1 / (c.length : ℚ) else 0)

/-- The L1 distance of two rank snapshots over the corpus keys. -/
def l1dist (c : Corpus) (f g : Page → ℚ) : ℚ :=
  (c.map (fun kv => |f kv.1 - g kv.1|)).sum

/-- Pure iteration of the update round on dicts, used to reason about the
loop's trajectory. -/
def iterRounds (c : Corpus) (D : ℚ) : ℕ → PDist → PDist
  | 0, pr => pr
  | j + 1, pr => iterRounds c D j (calculated c D pr)

/-- L1 gap between a snapshot and its update. -/
def curGap (c : Corpus) (D : ℚ) (pr : PDist) : ℚ :=
  l1dist c (getV pr) (getV (calculated c D pr))
/-! ### Elementary list-sum helpers -/

lemma qsum_map_add {α : Type} (l : List α) (f g : α → ℚ) :
    (l.map (fun x => f x + g x)).sum = (l.map f).sum + (l.map g).sum := by
  induction l with
  | nil => simp
  | cons a t ih => simp [ih]; ring

lemma qsum_map_le {α : Type} (l : List α) (f g : α → ℚ)
    (h : ∀ x ∈ l, f x ≤ g x) : (l.map f).sum ≤ (l.map g).sum := by
  induction l with
  | nil => simp
  | cons a t ih =>
    simp only [List.map_cons, List.sum_cons]
    exact add_le_add (h a (List.mem_cons_self a t))
      (ih fun x hx => h x (List.mem_cons_of_mem a hx))

lemma qabs_sum_le {α : Type} (l : List α) (f : α → ℚ) :
    |(l.map f).sum| ≤ (l.map (fun x => |f x|)).sum := by
  induction l with
  | nil => simp
  | cons a t ih =>
    simp only [List.map_cons, List.sum_cons]
    exact (abs_add _ _).trans (add_le_add_left ih _)

lemma qsum_map_mul_left {α : Type} (l : List α) (c : ℚ) (f : α → ℚ) :
    (l.map (fun x => c * f x)).sum = c * (l.map f).sum := by
  induction l with
  | nil => simp
  | cons a t ih => simp [ih]; ring

lemma qsum_map_const {α : Type} (l : List α) (c : ℚ) :
    (l.map (fun _ => c)).sum = (l.length : ℚ) * c := by
  induction l with
  | nil => simp
  | cons a t ih => simp [ih]; ring

lemma qsum_nonneg {α : Type} (l : List α) (f : α → ℚ)
    (h0 : ∀ x ∈ l, 0 ≤ f x) : 0 ≤ (l.map f).sum := by
  have := qsum_map_le l (fun _ => 0) f h0
  simpa using this

lemma qsum_member_le {α : Type} (f : α → ℚ) (x : α) :
    ∀ (l : List α), (∀ y ∈ l, 0 ≤ f y) → x ∈ l → f x ≤ (l.map f).sum := by
  intro l
  induction l with
  | nil => intro _ hx; cases hx
  | cons a t ih =>
    intro h0 hx
    simp only [List.map_cons, List.sum_cons]
    rcases List.mem_cons.mp hx with h | h
    · have : (0 : ℚ) ≤ (t.map f).sum :=
        qsum_nonneg t f (fun y hy => h0 y (List.mem_cons_of_mem a hy))
      rw [h]
      linarith
    · have h1 := h0 a (List.mem_cons_self a t)
      have h2 := ih (fun y hy => h0 y (List.mem_cons_of_mem a hy)) h
      linarith

/-- Sum over `l` of the indicator of a single element `a ∈ l`, when `l`
has no duplicates. -/
lemma qsum_single_indicator (a : Page) (x : ℚ) :
    ∀ (l : List Page), l.Nodup → a ∈ l →
      (l.map (fun p => if p = a then x else 0)).sum = x := by
  intro l
  induction l with
  | nil => intro _ ha; cases ha
  | cons b t ih =>
    intro hl ha
    have hb : b ∉ t := (List.nodup_cons.mp hl).1
    simp only [List.map_cons, List.sum_cons]
    rcases List.mem_cons.mp ha with h | h
    · subst h
      have hz : (t.map (fun p => if p = a then x else 0)).sum
          = (t.map (fun _ => (0 : ℚ))).sum := by
        apply congrArg List.sum
        apply List.map_congr_left
        intro p hp
        have hpa : p ≠ a := fun hc => hb (hc ▸ hp)
        simp [hpa]
      simp [hz]
    · have hba : b ≠ a := fun hba => hb (hba ▸ h)
      rw [if_neg hba, ih (List.nodup_cons.mp hl).2 h, zero_add]

/-- Sum over a duplicate-free list `l` of the indicator of membership in a
duplicate-free sublist `s ⊆ l`: every element of `s` is hit exactly once. -/
lemma qsum_mem_indicator (s : List Page) (hs : s.Nodup) :
    ∀ (l : List Page), l.Nodup → (∀ q ∈ s, q ∈ l) → ∀ x : ℚ,
    (l.map (fun p => if p ∈ s then x else 0)).sum = (s.length : ℚ) * x := by
  induction s with
  | nil => intro l _ _ x; simp
  | cons a t ih =>
    intro l hl hsub x
    have hat : a ∉ t := (List.nodup_cons.mp hs).1
    have hsplit : ∀ p ∈ l, (if p ∈ a :: t then x else 0)
        = (if p = a then x else 0) + (if p ∈ t then x else 0) := by
      intro p _
      by_cases hpa : p = a
      · subst hpa
        simp [hat]
      · by_cases hpt : p ∈ t <;> simp [hpa, hpt]
    calc (l.map (fun p => if p ∈ a :: t then x else 0)).sum
        = (l.map (fun p => (if p = a then x else 0) + (if p ∈ t then x else 0))).sum := by
          exact congrArg List.sum (List.map_congr_left hsplit)
      _ = (l.map (fun p => if p = a then x else 0)).sum
            + (l.map (fun p => if p ∈ t then x else 0)).sum := qsum_map_add ..
      _ = x + (t.length : ℚ) * x := by
          rw [qsum_single_indicator a x l hl (hsub a (List.mem_cons_self a t)),
            ih (List.nodup_cons.mp hs).2 l hl
              (fun q hq => hsub q (List.mem_cons_of_mem a hq)) x]
      _ = ((a :: t).length : ℚ) * x := by
          simp only [List.length_cons]
          push_cast
          ring

/-- Exchanging two nested list sums. -/
lemma qsum_comm {α β : Type} (l : List α) (m : List β) (f : α → β → ℚ) :
    (l.map (fun x => (m.map (f x)).sum)).sum
      = (m.map (fun y => (l.map (fun x => f x y)).sum)).sum := by
  induction l with
  | nil => simp [qsum_map_const]
  | cons a t ih =>
    simp only [List.map_cons, List.sum_cons, ih]
    rw [← qsum_map_add]

/-! ### Dict-access lemmas -/

lemma getV_map_keyfun (h : Page → ℚ) :
    ∀ (c : Corpus) (p : Page), p ∈ keys c →
      getV (c.map (fun kv => (kv.1, h kv.1))) p = h p := by
  intro c
  induction c with
  | nil => intro p hp; cases hp
  | cons kv t ih =>
    intro p hp
    by_cases hk : kv.1 = p
    · subst hk; simp [getV]
    · have : p ∈ keys t := by
        rcases List.mem_cons.mp hp with h' | h'
        · exact absurd h'.symm hk
        · exact h'
      simpa [getV, hk] using ih p this

lemma keys_map_keyfun (h : Page → ℚ) (c : Corpus) :
    (c.map (fun kv => (kv.1, h kv.1))).map Prod.fst = keys c := by
  simp [keys, List.map_map, Function.comp]

lemma lookupLinks_eq_none_iff (c : Corpus) (p : Page) :
    lookupLinks c p = none ↔ p ∉ keys c := by
  induction c with
  | nil => simp [lookupLinks, keys]
  | cons kv t ih =>
    by_cases hk : kv.1 = p
    · subst hk; simp [lookupLinks, keys]
    · simp only [lookupLinks, if_neg hk, ih, keys, List.map_cons, List.mem_cons]
      constructor
      · intro h hcon
        rcases hcon with h' | h'
        · exact hk h'.symm
        · exact h h'
      · intro h h'
        exact h (Or.inr h')

lemma lookupLinks_mem :
    ∀ {c : Corpus} {p : Page} {links : List Page},
      lookupLinks c p = some links → (p, links) ∈ c := by
  intro c
  induction c with
  | nil => intro p links h; simp [lookupLinks] at h
  | cons kv t ih =>
    intro p links h
    simp only [lookupLinks] at h
    by_cases hk : kv.1 = p
    · rw [if_pos hk] at h
      have h2 : links = kv.2 := (Option.some_inj.mp h).symm
      have h3 : (p, links) = kv := by rw [h2, ← hk]
      exact List.mem_cons.mpr (Or.inl h3)
    · rw [if_neg hk] at h
      exact List.mem_cons_of_mem _ (ih h)

lemma lookupLinks_exists {c : Corpus} {p : Page} (hp : p ∈ keys c) :
    ∃ links, lookupLinks c p = some links := by
  rcases h : lookupLinks c p with _ | links
  · exact absurd ((lookupLinks_eq_none_iff c p).mp h) (not_not_intro hp)
  · exact ⟨links, rfl⟩

/-! ### `addToKey` and the link-update fold of `transition_model` -/

lemma addToKey_eq_some {l : PDist} {p : Page} (v : ℚ)
    (hp : p ∈ l.map Prod.fst) :
    addToKey l p v
      = some (l.map (fun kv => if kv.1 = p then (kv.1, kv.2 + v) else kv)) := by
  simp [addToKey, hp]

lemma addToKey_eq_none {l : PDist} {p : Page} (v : ℚ)
    (hp : p ∉ l.map Prod.fst) : addToKey l p v = none := by
  simp [addToKey, hp]

lemma keys_update (l : PDist) (p : Page) (v : ℚ) :
    (l.map (fun kv => if kv.1 = p then (kv.1, kv.2 + v) else kv)).map Prod.fst
      = l.map Prod.fst := by
  rw [List.map_map]
  apply List.map_congr_left
  intro kv _
  by_cases h : kv.1 = p <;> simp [h]

lemma getV_update_ne (p q : Page) (v : ℚ) (hqp : q ≠ p) :
    ∀ (l : PDist),
      getV (l.map (fun kv => if kv.1 = p then (kv.1, kv.2 + v) else kv)) q
        = getV l q := by
  intro l
  induction l with
  | nil => simp [getV]
  | cons kv t ih =>
    by_cases hkq : kv.1 = q
    · have hkp : ¬ kv.1 = p := fun h => hqp (hkq ▸ h)
      simp [getV, hkq, hkp, hqp]
    · by_cases hkp : kv.1 = p
      · have h1 : ¬ (if kv.1 = p then (kv.1, kv.2 + v) else kv).1 = q := by
          simp [hkp, hkq, Ne.symm hqp]
        simpa [getV, h1, hkq] using ih
      · have h1 : ¬ (if kv.1 = p then (kv.1, kv.2 + v) else kv).1 = q := by
          simp [hkp, hkq]
        simpa [getV, h1, hkq] using ih

lemma getV_update_self (p : Page) (v : ℚ) :
    ∀ (l : PDist), p ∈ l.map Prod.fst →
      getV (l.map (fun kv => if kv.1 = p then (kv.1, kv.2 + v) else kv)) p
        = getV l p + v := by
  intro l
  induction l with
  | nil => intro h; cases h
  | cons kv t ih =>
    intro hp
    by_cases hkp : kv.1 = p
    · simp [getV, hkp]
    · have hpt : p ∈ t.map Prod.fst := by
        rcases List.mem_cons.mp hp with h | h
        · exact absurd h.symm hkp
        · exact h
      have h1 : ¬ (if kv.1 = p then (kv.1, kv.2 + v) else kv).1 = p := by
        simp [hkp]
      simpa [getV, h1, hkp] using ih hpt

lemma distSum_update (p : Page) (v : ℚ) :
    ∀ (l : PDist), (l.map Prod.fst).Nodup →
      distSum (l.map (fun kv => if kv.1 = p then (kv.1, kv.2 + v) else kv))
        = distSum l + (if p ∈ l.map Prod.fst then v else 0) := by
  intro l
  induction l with
  | nil => simp [distSum]
  | cons kv t ih =>
    intro hl
    have htl : (t.map Prod.fst).Nodup := (List.nodup_cons.mp hl).2
    by_cases hkp : kv.1 = p
    · have hnt : p ∉ t.map Prod.fst := hkp ▸ (List.nodup_cons.mp hl).1
      have hin : p ∈ kv.1 :: t.map Prod.fst :=
        List.mem_cons.mpr (Or.inl hkp.symm)
      have h2 := ih htl
      simp only [distSum] at h2
      rw [List.map_map] at h2
      simp only [List.map_cons, distSum, List.sum_cons, if_pos hkp]
      rw [List.map_map]
      simp only [h2, hnt, if_neg, if_pos hin]
      simp
      ring
    · have h2 := ih htl
      simp only [distSum] at h2
      simp only [List.map_cons, distSum, List.sum_cons, if_neg hkp]
      rw [List.map_map] at h2 ⊢
      simp only [h2]
      by_cases hp : p ∈ t.map Prod.fst
      · have hin : p ∈ kv.1 :: t.map Prod.fst := List.mem_cons.mpr (Or.inr hp)
        simp [hp, hin]
        ring
      · have hin : p ∉ kv.1 :: t.map Prod.fst := by
          intro hc
          rcases List.mem_cons.mp hc with hc | hc
          · exact hkp hc.symm
          · exact hp hc
        simp [hp, hin]

/-- Master lemma for the `for link in links` fold of `transition_model`:
with distinct links that are all keys of the running dict, the fold
succeeds, preserves the key list, adds `links.length * w` to the total,
and adds `w` exactly to the linked keys. -/
lemma foldlM_addToKey (w : ℚ) :
    ∀ (links : List Page) (l : PDist), links.Nodup →
      (∀ q ∈ links, q ∈ l.map Prod.fst) → (l.map Prod.fst).Nodup →
      ∃ out, links.foldlM (fun dist link => addToKey dist link w) l = some out ∧
        out.map Prod.fst = l.map Prod.fst ∧
        distSum out = distSum l + (links.length : ℚ) * w ∧
        ∀ q, getV out q = getV l q + (if q ∈ links then w else 0) := by
  intro links
  induction links with
  | nil =>
    intro l _ _ _
    exact ⟨l, by simp [List.foldlM_nil], rfl, by simp, fun q => by simp⟩
  | cons a t ih =>
    intro l hnd hsub hl
    have ha : a ∈ l.map Prod.fst := hsub a (List.mem_cons_self a t)
    have hat : a ∉ t := (List.nodup_cons.mp hnd).1
    set l₁ : PDist := l.map (fun kv => if kv.1 = a then (kv.1, kv.2 + w) else kv) with hl₁
    have hkeys₁ : l₁.map Prod.fst = l.map Prod.fst := keys_update l a w
    obtain ⟨out, hfold, hkeys, hsum, hget⟩ :=
      ih l₁ (List.nodup_cons.mp hnd).2
        (fun q hq => hkeys₁ ▸ hsub q (List.mem_cons_of_mem a hq))
        (hkeys₁ ▸ hl)
    refine ⟨out, ?_, hkeys.trans hkeys₁, ?_, ?_⟩
    · rw [List.foldlM_cons, addToKey_eq_some w ha]
      simpa using hfold
    · rw [hsum, distSum_update a w l hl, if_pos ha]
      simp only [List.length_cons]
      push_cast
      ring
    · intro q
      rw [hget q]
      by_cases hqa : q = a
      · subst hqa
        rw [getV_update_self q w l ha]
        have hqt : q ∉ t := hat
        simp [hqt]
      · rw [getV_update_ne a q w hqa l]
        by_cases hqt : q ∈ t <;> simp [hqa, hqt]

/-! ### Behaviour of `transition_model` on a valid corpus -/

lemma length_cast_ne_zero {c : Corpus} (hne : c ≠ []) :
    ((c.length : ℚ)) ≠ 0 := by
  have : 0 < c.length := List.length_pos.mpr hne
  exact_mod_cast Nat.pos_iff_ne_zero.mp this

/-- Master lemma: on a valid corpus with `page` a key, `transition_model`
returns a distribution over exactly the corpus keys whose values sum to 1
and follow the damped-surfer formula. -/
lemma transition_model_spec (c : Corpus) (p : Page) (d : ℚ)
    (hc : ValidCorpus c) (hp : p ∈ keys c) :
    ∃ links dist, lookupLinks c p = some links ∧ (p, links) ∈ c ∧
      transition_model c p d = some dist ∧
      dist.map Prod.fst = keys c ∧
      distSum dist = 1 ∧
      ∀ q ∈ keys c, getV dist q =
        if links.length = 0 then 1 / (c.length : ℚ)
        else (1 - d) / (c.length : ℚ)
          + (if q ∈ links then d / (links.length : ℚ) else 0) := by
  obtain ⟨links, hlk⟩ := lookupLinks_exists hp
  have hmem : (p, links) ∈ c := lookupLinks_mem hlk
  have hlinks := hc.2 _ hmem
  have hne : c ≠ [] := by
    intro h
    subst h
    cases hp
  have hN : ((c.length : ℚ)) ≠ 0 := length_cast_ne_zero hne
  by_cases h0 : links.length = 0
  · refine ⟨links, c.map (fun kv => (kv.1, 1 / (c.length : ℚ))), hlk, hmem, ?_, ?_, ?_, ?_⟩
    · simp [transition_model, hlk, h0]
    · exact keys_map_keyfun (fun _ => 1 / (c.length : ℚ)) c
    · simp only [distSum, List.map_map]
      have : (Prod.snd ∘ fun kv : Page × List Page => (kv.1, 1 / (c.length : ℚ)))
          = fun _ => 1 / (c.length : ℚ) := rfl
      rw [this, qsum_map_const]
      field_simp
    · intro q hq
      rw [if_pos h0]
      simpa using getV_map_keyfun (fun _ => 1 / (c.length : ℚ)) c q hq
  · have hL : ((links.length : ℚ)) ≠ 0 := by
      exact_mod_cast h0
    have hkb : (c.map (fun kv => (kv.1, (1 - d) / (c.length : ℚ)))).map Prod.fst
        = keys c := keys_map_keyfun (fun _ => (1 - d) / (c.length : ℚ)) c
    obtain ⟨out, hfold, hkeys, hsum, hget⟩ :=
      foldlM_addToKey (d / (links.length : ℚ)) links
        (c.map (fun kv => (kv.1, (1 - d) / (c.length : ℚ))))
        hlinks.1
        (fun q hq => by
          rw [hkb]
          exact hlinks.2 q hq)
        (by rw [hkb]; exact hc.1)
    refine ⟨links, out, hlk, hmem, ?_, ?_, ?_, ?_⟩
    · simp only [transition_model, hlk, h0, if_neg, ite_false]
      exact hfold
    · rw [hkeys, hkb]
    · rw [hsum]
      simp only [distSum, List.map_map]
      have : (Prod.snd ∘ fun kv : Page × List Page => (kv.1, (1 - d) / (c.length : ℚ)))
          = fun _ => (1 - d) / (c.length : ℚ) := rfl
      rw [this, qsum_map_const]
      field_simp
    · intro q hq
      rw [hget q, if_neg h0]
      have h5 := getV_map_keyfun (fun _ => (1 - d) / (c.length : ℚ)) c q hq
      rw [h5]

/-- C1: for every non-empty valid link graph, every `currentPage` that is
a key, and every damping factor in (0,1), `transition_model` returns the
uniform distribution `1/N` when the page has no outgoing links, and
otherwise `(1-d)/N` on every page plus an extra `d/L` on each page linked
from `currentPage`, `L` being the out-degree. -/
theorem C1_transition_model_formula (c : Corpus) (p : Page) (d : ℚ)
    (hc : ValidCorpus c) (hne : c ≠ []) (hp : p ∈ keys c)
    (hd0 : 0 < d) (hd1 : d < 1) :
    ∃ links dist, lookupLinks c p = some links ∧
      transition_model c p d = some dist ∧
      ∀ q ∈ keys c, getV dist q =
        if links.length = 0 then 1 / (c.length : ℚ)
        else (1 - d) / (c.length : ℚ)
          + (if q ∈ links then d / (links.length : ℚ) else 0) := by
  obtain ⟨links, dist, h1, _, h3, _, _, h6⟩ := transition_model_spec c p d hc hp
  exact ⟨links, dist, h1, h3, h6⟩

/-- Witness for C1 on the concrete two-page graph `0 ↔ 1`. -/
theorem C1_witness :
    ∃ links dist, lookupLinks [(0, [1]), (1, [0])] 0 = some links ∧
      transition_model [(0, [1]), (1, [0])] 0 (1/2) = some dist ∧
      ∀ q ∈ keys [(0, [1]), (1, [0])], getV dist q =
        if links.length = 0 then 1 / ((List.length [(0, [1]), (1, [0])] : ℕ) : ℚ)
        else (1 - 1/2) / ((List.length [(0, [1]), (1, [0])] : ℕ) : ℚ)
          + (if q ∈ links then (1/2) / ((links.length : ℕ) : ℚ) else 0) :=
  C1_transition_model_formula [(0, [1]), (1, [0])] 0 (1/2)
    (by decide) (by decide) (by decide) (by norm_num) (by norm_num)

/-- C3: for every non-empty valid link graph, key `currentPage`, and
damping factor in (0,1), the distribution returned by `transition_model`
has key set exactly the graph's page set and values summing exactly to 1. -/
theorem C3_transition_model_distribution (c : Corpus) (p : Page) (d : ℚ)
    (hc : ValidCorpus c) (hne : c ≠ []) (hp : p ∈ keys c)
    (hd0 : 0 < d) (hd1 : d < 1) :
    ∃ dist, transition_model c p d = some dist ∧
      dist.map Prod.fst = keys c ∧ distSum dist = 1 := by
  obtain ⟨_, dist, _, _, h3, h4, h5, _⟩ := transition_model_spec c p d hc hp
  exact ⟨dist, h3, h4, h5⟩

/-- Witness for C3 on the dangling three-page chain `0 → 1 → 2`. -/
theorem C3_witness :
    ∃ dist, transition_model [(0, [1]), (1, [2]), (2, [])] 1 (85/100) = some dist ∧
      dist.map Prod.fst = keys [(0, [1]), (1, [2]), (2, [])] ∧ distSum dist = 1 :=
  C3_transition_model_distribution [(0, [1]), (1, [2]), (2, [])] 1 (85/100)
    (by decide) (by decide) (by decide) (by norm_num) (by norm_num)

/-- C9: `transition_model` raises (returns `none`) exactly when
`currentPage` is not a key of the graph or the graph is empty; under the
precondition that the graph is non-empty and `currentPage` is a key, a
distribution is always returned. -/
theorem C9_transition_model_failure (c : Corpus) (p : Page) (d : ℚ)
    (hc : ValidCorpus c) :
    ((p ∉ keys c ∨ c = []) → transition_model c p d = none) ∧
    (c ≠ [] → p ∈ keys c → ∃ dist, transition_model c p d = some dist) := by
  constructor
  · intro h
    have hnk : p ∉ keys c := by
      rcases h with h | h
      · exact h
      · subst h
        simp [keys]
    have hlk := (lookupLinks_eq_none_iff c p).mpr hnk
    simp [transition_model, hlk]
  · intro _ hp
    obtain ⟨_, dist, _, _, h3, _, _, _⟩ := transition_model_spec c p d hc hp
    exact ⟨dist, h3⟩

/-- Witness for C9: page 5 is absent from the two-page graph, so the
model fails there; page 0 is present, so a distribution is returned. -/
theorem C9_witness :
    (((5 : Page) ∉ keys [(0, [1]), (1, [0])] ∨ [(0, [1]), (1, [0])] = ([] : Corpus))
        → transition_model [(0, [1]), (1, [0])] 5 (85/100) = none) ∧
    ([(0, [1]), (1, [0])] ≠ ([] : Corpus) → (0 : Page) ∈ keys [(0, [1]), (1, [0])]
        → ∃ dist, transition_model [(0, [1]), (1, [0])] 0 (85/100) = some dist) :=
  ⟨(C9_transition_model_failure [(0, [1]), (1, [0])] 5 (85/100) (by decide)).1,
   (C9_transition_model_failure [(0, [1]), (1, [0])] 0 (85/100) (by decide)).2⟩

/-! ### The update round of `iterate_pagerank` as a sum -/

lemma qsum_map_sub {α : Type} (l : List α) (f g : α → ℚ) :
    (l.map (fun x => f x - g x)).sum = (l.map f).sum - (l.map g).sum := by
  induction l with
  | nil => simp
  | cons a t ih => simp [ih]; ring

lemma foldl_step_general (f : Page → ℚ) (P : Page) (N : ℚ) :
    ∀ (l : List (Page × List Page)) (a : ℚ),
      l.foldl
        (fun s kv =>
          let s' := if P ∈ kv.2 then s + f kv.1 / (kv.2.length : ℚ) else s
          if kv.2 = [] then s' + f kv.1 / N else s')
        a
      = a + (l.map (fun kv =>
          (if P ∈ kv.2 then f kv.1 / (kv.2.length : ℚ) else 0)
          + (if kv.2 = [] then f kv.1 / N else 0))).sum := by
  intro l
  induction l with
  | nil => intro a; simp
  | cons kv t ih =>
    intro a
    simp only [List.foldl_cons, List.map_cons, List.sum_cons, ih]
    by_cases h1 : P ∈ kv.2 <;> by_cases h2 : kv.2 = [] <;> simp [h1, h2] <;> ring

/-- The inner `for page in corpus` loop of `iterate_pagerank`, written as
a sum over corpus entries. -/
lemma iterate_round_sum (c : Corpus) (D : ℚ) (f : Page → ℚ) (P : Page) :
    iterate_round c D f P = (1 - D) / (c.length : ℚ)
      + D * (c.map (fun kv =>
          (if P ∈ kv.2 then f kv.1 / (kv.2.length : ℚ) else 0)
          + (if kv.2 = [] then f kv.1 / (c.length : ℚ) else 0))).sum := by
  show (1 - D) / (c.length : ℚ) + D * (c.foldl _ 0) = _
  rw [foldl_step_general f P (c.length : ℚ) c 0, zero_add]

lemma coefficient_nonneg (c : Corpus) (P : Page) (kv : Page × List Page) :
    0 ≤ coefficient c P kv := by
  unfold coefficient
  have h1 : (0 : ℚ) ≤ (if P ∈ kv.2 then 1 / (kv.2.length : ℚ) else 0) := by
    by_cases h : P ∈ kv.2 <;> simp [h]
  have h2 : (0 : ℚ) ≤ (if kv.2 = [] then 1 / (c.length : ℚ) else 0) := by
    by_cases h : kv.2 = [] <;> simp [h]
  linarith

lemma iterate_round_coef (c : Corpus) (D : ℚ) (f : Page → ℚ) (P : Page) :
    iterate_round c D f P = (1 - D) / (c.length : ℚ)
      + D * (c.map (fun kv => coefficient c P kv * f kv.1)).sum := by
  rw [iterate_round_sum]
  have hmc : c.map (fun kv =>
        (if P ∈ kv.2 then f kv.1 / (kv.2.length : ℚ) else 0)
        + (if kv.2 = [] then f kv.1 / (c.length : ℚ) else 0))
      = c.map (fun kv => coefficient c P kv * f kv.1) := by
    apply List.map_congr_left
    intro kv _
    unfold coefficient
    by_cases h1 : P ∈ kv.2 <;> by_cases h2 : kv.2 = [] <;> simp [h1, h2] <;> ring
  rw [hmc]

lemma iterate_round_congr (c : Corpus) (D : ℚ) {f g : Page → ℚ}
    (h : ∀ q ∈ keys c, f q = g q) (P : Page) :
    iterate_round c D f P = iterate_round c D g P := by
  rw [iterate_round_coef, iterate_round_coef]
  have hmc : c.map (fun kv => coefficient c P kv * f kv.1)
      = c.map (fun kv => coefficient c P kv * g kv.1) := by
    apply List.map_congr_left
    intro kv hkv
    rw [h kv.1 (List.mem_map.mpr ⟨kv, hkv, rfl⟩)]
  rw [hmc]

/-- Column sums of the update matrix: each corpus entry distributes its
whole previous rank (out-degree links each `1/L`, dangling `1/N` to each
of the `N` pages). -/
lemma coefficient_colsum (c : Corpus) (hc : ValidCorpus c) (hne : c ≠ [])
    {kv : Page × List Page} (hkv : kv ∈ c) :
    ((keys c).map (fun P => coefficient c P kv)).sum = 1 := by
  have hN : ((c.length : ℚ)) ≠ 0 := length_cast_ne_zero hne
  have hbits := hc.2 kv hkv
  unfold coefficient
  rw [qsum_map_add]
  by_cases h2 : kv.2 = []
  · have hz : ((keys c).map (fun P => if P ∈ kv.2 then 1 / (kv.2.length : ℚ) else 0)).sum
        = 0 := by
      have : ∀ P ∈ keys c, (if P ∈ kv.2 then 1 / (kv.2.length : ℚ) else 0) = 0 := by
        intro P _
        simp [h2]
      rw [List.map_congr_left this]
      simp
    have hconst : ((keys c).map (fun _ => if kv.2 = [] then 1 / (c.length : ℚ) else 0)).sum
        = ((keys c).length : ℚ) * (if kv.2 = [] then 1 / (c.length : ℚ) else 0) :=
      qsum_map_const _ _
    have hlen : (((keys c).length : ℕ) : ℚ) = (c.length : ℚ) := by
      simp [keys]
    rw [hz, hconst, if_pos h2, hlen, zero_add]
    field_simp
  · have hL : ((kv.2.length : ℚ)) ≠ 0 := by
      have : kv.2.length ≠ 0 := fun hz => h2 (List.length_eq_zero.mp hz)
      exact_mod_cast this
    have h1 : ((keys c).map (fun P => if P ∈ kv.2 then 1 / (kv.2.length : ℚ) else 0)).sum
        = (kv.2.length : ℚ) * (1 / (kv.2.length : ℚ)) :=
      qsum_mem_indicator kv.2 hbits.1 (keys c) hc.1 hbits.2 (1 / (kv.2.length : ℚ))
    have hconst : ((keys c).map (fun _ => if kv.2 = [] then 1 / (c.length : ℚ) else 0)).sum
        = ((keys c).length : ℚ) * (if kv.2 = [] then 1 / (c.length : ℚ) else 0) :=
      qsum_map_const _ _
    rw [h1, hconst, if_neg h2, mul_zero, add_zero]
    field_simp

lemma qsum_over_keys (c : Corpus) (h : Page → ℚ) :
    (c.map (fun kv => h kv.1)).sum = ((keys c).map h).sum := by
  rw [keys, List.map_map]
  rfl

/-- One update round is affine in the previous snapshot: the total mass
becomes `(1-D) + D * (previous total)`.  In particular a total of 1 is
preserved. -/
lemma rankSum_iterate_round (c : Corpus) (hc : ValidCorpus c) (hne : c ≠ [])
    (D : ℚ) (f : Page → ℚ) :
    rankSum c (iterate_round c D f) = (1 - D) + D * rankSum c f := by
  have hN : ((c.length : ℚ)) ≠ 0 := length_cast_ne_zero hne
  have hlen : (((keys c).length : ℕ) : ℚ) = (c.length : ℚ) := by simp [keys]
  rw [rankSum, qsum_over_keys]
  have h1 : (keys c).map (iterate_round c D f)
      = (keys c).map (fun P => (1 - D) / (c.length : ℚ)
          + D * (c.map (fun kv => coefficient c P kv * f kv.1)).sum) :=
    List.map_congr_left (fun P _ => iterate_round_coef c D f P)
  rw [h1, qsum_map_add, qsum_map_const, hlen]
  have h2 : ((keys c).map (fun P => D * (c.map (fun kv => coefficient c P kv * f kv.1)).sum)).sum
      = D * ((keys c).map (fun P => (c.map (fun kv => coefficient c P kv * f kv.1)).sum)).sum :=
    qsum_map_mul_left _ D _
  rw [h2, qsum_comm (keys c) c (fun P kv => coefficient c P kv * f kv.1)]
  have h3 : c.map (fun kv => ((keys c).map (fun P => coefficient c P kv * f kv.1)).sum)
      = c.map (fun kv => f kv.1) := by
    apply List.map_congr_left
    intro kv hkv
    have hmc : (keys c).map (fun P => coefficient c P kv * f kv.1)
        = (keys c).map (fun P => f kv.1 * coefficient c P kv) := by
      apply List.map_congr_left
      intro P _
      ring
    rw [hmc, qsum_map_mul_left, coefficient_colsum c hc hne hkv, mul_one]
  rw [h3, ← rankSum]
  field_simp

lemma l1dist_nonneg (c : Corpus) (f g : Page → ℚ) : 0 ≤ l1dist c f g :=
  qsum_nonneg _ _ (fun kv _ => abs_nonneg _)

lemma coord_le_l1dist (c : Corpus) (f g : Page → ℚ) {p : Page}
    (hp : p ∈ keys c) : |f p - g p| ≤ l1dist c f g := by
  obtain ⟨kv, hkv, hfst⟩ := List.mem_map.mp hp
  have h2 : |f kv.1 - g kv.1|
      ≤ (c.map (fun kv : Page × List Page => |f kv.1 - g kv.1|)).sum :=
    qsum_member_le (fun kv : Page × List Page => |f kv.1 - g kv.1|) kv c
      (fun y _ => abs_nonneg _) hkv
  rw [hfst] at h2
  exact h2

lemma iterate_round_sub (c : Corpus) (D : ℚ) (f g : Page → ℚ) (P : Page) :
    iterate_round c D f P - iterate_round c D g P
      = D * (c.map (fun kv => coefficient c P kv * (f kv.1 - g kv.1))).sum := by
  have h2 : (c.map (fun kv => coefficient c P kv * (f kv.1 - g kv.1))).sum
      = (c.map (fun kv => coefficient c P kv * f kv.1)).sum
        - (c.map (fun kv => coefficient c P kv * g kv.1)).sum := by
    rw [← qsum_map_sub]
    apply congrArg List.sum
    apply List.map_congr_left
    intro kv _
    ring
  rw [iterate_round_coef, iterate_round_coef, h2]
  ring

/-- The update round contracts the L1 distance between snapshots by at
least the damping factor: this is the column-stochasticity of the update
matrix on a valid corpus. -/
lemma l1dist_iterate_round (c : Corpus) (hc : ValidCorpus c) (hne : c ≠ [])
    {D : ℚ} (hD : 0 ≤ D) (f g : Page → ℚ) :
    l1dist c (iterate_round c D f) (iterate_round c D g) ≤ D * l1dist c f g := by
  unfold l1dist
  have hterm : ∀ kv ∈ c, |iterate_round c D f kv.1 - iterate_round c D g kv.1|
      ≤ D * (c.map (fun kv2 => coefficient c kv.1 kv2 * |f kv2.1 - g kv2.1|)).sum := by
    intro kv _
    rw [iterate_round_sub, abs_mul, abs_of_nonneg hD]
    apply mul_le_mul_of_nonneg_left _ hD
    calc |(c.map (fun kv2 => coefficient c kv.1 kv2 * (f kv2.1 - g kv2.1))).sum|
        ≤ (c.map (fun kv2 => |coefficient c kv.1 kv2 * (f kv2.1 - g kv2.1)|)).sum :=
          qabs_sum_le _ _
      _ = (c.map (fun kv2 => coefficient c kv.1 kv2 * |f kv2.1 - g kv2.1|)).sum := by
          apply congrArg List.sum
          apply List.map_congr_left
          intro kv2 _
          rw [abs_mul, abs_of_nonneg (coefficient_nonneg c kv.1 kv2)]
  calc (c.map (fun kv => |iterate_round c D f kv.1 - iterate_round c D g kv.1|)).sum
      ≤ (c.map (fun kv =>
          D * (c.map (fun kv2 => coefficient c kv.1 kv2 * |f kv2.1 - g kv2.1|)).sum)).sum :=
        qsum_map_le _ _ _ hterm
    _ = D * (c.map (fun kv =>
          (c.map (fun kv2 => coefficient c kv.1 kv2 * |f kv2.1 - g kv2.1|)).sum)).sum :=
        qsum_map_mul_left _ D _
    _ = D * (c.map (fun kv2 =>
          (c.map (fun kv => coefficient c kv.1 kv2 * |f kv2.1 - g kv2.1|)).sum)).sum := by
        rw [qsum_comm c c (fun kv kv2 => coefficient c kv.1 kv2 * |f kv2.1 - g kv2.1|)]
    _ = D * (c.map (fun kv2 => |f kv2.1 - g kv2.1|)).sum := by
        apply congrArg (D * ·)
        apply congrArg List.sum
        apply List.map_congr_left
        intro kv2 hkv2
        have hmc : c.map (fun kv => coefficient c kv.1 kv2 * |f kv2.1 - g kv2.1|)
            = c.map (fun kv => |f kv2.1 - g kv2.1| * coefficient c kv.1 kv2) := by
          apply List.map_congr_left
          intro kv _
          ring
        rw [hmc, qsum_map_mul_left]
        have hcol : (c.map (fun kv => coefficient c kv.1 kv2)).sum = 1 := by
          rw [qsum_over_keys c (fun P => coefficient c P kv2)]
          exact coefficient_colsum c hc hne hkv2
        rw [hcol, mul_one]

/-! ### Dict-level behaviour of the iterate loop -/

lemma getV_calculated (c : Corpus) (D : ℚ) (pr : PDist) {p : Page}
    (hp : p ∈ keys c) :
    getV (calculated c D pr) p = iterate_round c D (getV pr) p :=
  getV_map_keyfun (iterate_round c D (getV pr)) c p hp

lemma keys_calculated (c : Corpus) (D : ℚ) (pr : PDist) :
    (calculated c D pr).map Prod.fst = keys c :=
  keys_map_keyfun (iterate_round c D (getV pr)) c

lemma distSum_calculated (c : Corpus) (D : ℚ) (pr : PDist) :
    distSum (calculated c D pr) = rankSum c (iterate_round c D (getV pr)) := by
  simp only [distSum, calculated, rankSum, List.map_map]
  rfl

lemma rankSum_congr (c : Corpus) {f g : Page → ℚ}
    (h : ∀ p ∈ keys c, f p = g p) : rankSum c f = rankSum c g := by
  unfold rankSum
  apply congrArg List.sum
  apply List.map_congr_left
  intro kv hkv
  exact h kv.1 (List.mem_map.mpr ⟨kv, hkv, rfl⟩)

lemma l1dist_congr (c : Corpus) {f f' g g' : Page → ℚ}
    (hf : ∀ p ∈ keys c, f p = f' p) (hg : ∀ p ∈ keys c, g p = g' p) :
    l1dist c f g = l1dist c f' g' := by
  unfold l1dist
  apply congrArg List.sum
  apply List.map_congr_left
  intro kv hkv
  rw [hf kv.1 (List.mem_map.mpr ⟨kv, hkv, rfl⟩),
    hg kv.1 (List.mem_map.mpr ⟨kv, hkv, rfl⟩)]

lemma converged_iff (c : Corpus) (pr new : PDist) :
    converged c pr new = true
      ↔ ∀ p ∈ keys c, |getV pr p - getV new p| ≤ 1 / 1000 := by
  simp [converged, List.all_eq_true]

lemma converged_of_l1 (c : Corpus) (pr new : PDist)
    (h : l1dist c (getV pr) (getV new) ≤ 1 / 1000) :
    converged c pr new = true := by
  rw [converged_iff]
  intro p hp
  exact le_trans (coord_le_l1dist c (getV pr) (getV new) hp) h

lemma l1_of_not_converged (c : Corpus) (pr new : PDist)
    (h : converged c pr new = false) :
    1 / 1000 < l1dist c (getV pr) (getV new) := by
  have h2 : ¬ (converged c pr new = true) := by simp [h]
  rw [converged_iff] at h2
  push_neg at h2
  obtain ⟨p, hp, hgt⟩ := h2
  exact lt_of_lt_of_le hgt (coord_le_l1dist c (getV pr) (getV new) hp)

lemma iterate_loop_sound (c : Corpus) (D : ℚ) :
    ∀ (fuel : ℕ) (pr r : PDist), iterate_loop c D fuel pr = some r →
      ∃ pr0, r = calculated c D pr0 ∧ converged c pr0 r = true := by
  intro fuel
  induction fuel with
  | zero => intro pr r h; simp [iterate_loop] at h
  | succ f ih =>
    intro pr r h
    by_cases hcv : converged c pr (calculated c D pr) = true
    · simp only [iterate_loop, hcv, if_true] at h
      obtain rfl : calculated c D pr = r := Option.some_inj.mp h
      exact ⟨pr, rfl, hcv⟩
    · simp only [iterate_loop, hcv, if_false] at h
      exact ih _ r h

lemma iterate_loop_mono (c : Corpus) (D : ℚ) :
    ∀ (fuel : ℕ) (pr r : PDist), iterate_loop c D fuel pr = some r →
      iterate_loop c D (fuel + 1) pr = some r := by
  intro fuel
  induction fuel with
  | zero => intro pr r h; simp [iterate_loop] at h
  | succ f ih =>
    intro pr r h
    by_cases hcv : converged c pr (calculated c D pr) = true
    · simp only [iterate_loop, hcv, if_true] at h ⊢
      exact h
    · simp only [iterate_loop, hcv, if_false] at h ⊢
      exact ih _ r h

lemma iterate_loop_ge (c : Corpus) (D : ℚ) {fuel f : ℕ} (h : fuel ≤ f)
    {pr r : PDist} (hl : iterate_loop c D fuel pr = some r) :
    iterate_loop c D f pr = some r := by
  induction f with
  | zero =>
    have : fuel = 0 := Nat.le_zero.mp h
    subst this
    exact hl
  | succ g ih =>
    rcases Nat.lt_or_ge fuel (g + 1) with hlt | hge
    · exact iterate_loop_mono c D g pr r (ih (Nat.lt_succ_iff.mp hlt))
    · have : fuel = g + 1 := le_antisymm h hge
      subst this
      exact hl

lemma iterRounds_succ (c : Corpus) (D : ℚ) :
    ∀ (j : ℕ) (pr : PDist),
      iterRounds c D (j + 1) pr = calculated c D (iterRounds c D j pr) := by
  intro j
  induction j with
  | zero => intro pr; rfl
  | succ j ih =>
    intro pr
    show iterRounds c D (j + 1) (calculated c D pr) = _
    rw [ih (calculated c D pr)]
    rfl

lemma curGap_contract (c : Corpus) (hc : ValidCorpus c) (hne : c ≠ [])
    {D : ℚ} (hD : 0 ≤ D) (pr : PDist) :
    curGap c D (calculated c D pr) ≤ D * curGap c D pr := by
  unfold curGap
  have h1 : l1dist c (getV (calculated c D pr)) (getV (calculated c D (calculated c D pr)))
      = l1dist c (iterate_round c D (getV pr)) (iterate_round c D (getV (calculated c D pr))) :=
    l1dist_congr c (fun p hp => getV_calculated c D pr hp)
      (fun p hp => getV_calculated c D (calculated c D pr) hp)
  rw [h1]
  have h2 := l1dist_iterate_round c hc hne hD (getV pr) (getV (calculated c D pr))
  exact h2

lemma curGap_decay (c : Corpus) (hc : ValidCorpus c) (hne : c ≠ [])
    {D : ℚ} (hD : 0 ≤ D) :
    ∀ (j : ℕ) (pr : PDist),
      curGap c D (iterRounds c D j pr) ≤ D ^ j * curGap c D pr := by
  intro j
  induction j with
  | zero => intro pr; simp [iterRounds]
  | succ j ih =>
    intro pr
    rw [iterRounds_succ]
    calc curGap c D (calculated c D (iterRounds c D j pr))
        ≤ D * curGap c D (iterRounds c D j pr) :=
          curGap_contract c hc hne hD _
      _ ≤ D * (D ^ j * curGap c D pr) :=
          mul_le_mul_of_nonneg_left (ih pr) hD
      _ = D ^ (j + 1) * curGap c D pr := by ring

lemma iterate_loop_of_conv (c : Corpus) (D : ℚ) :
    ∀ (fuel : ℕ) (pr : PDist) (j : ℕ), j < fuel →
      curGap c D (iterRounds c D j pr) ≤ 1 / 1000 →
      ∃ r, iterate_loop c D fuel pr = some r := by
  intro fuel
  induction fuel with
  | zero => intro pr j hj; omega
  | succ f ih =>
    intro pr j hj hcur
    by_cases hcv : converged c pr (calculated c D pr) = true
    · exact ⟨calculated c D pr, by simp [iterate_loop, hcv]⟩
    · have hfalse : converged c pr (calculated c D pr) = false :=
        Bool.eq_false_iff.mpr hcv
      have hl1 : 1 / 1000 < curGap c D pr :=
        l1_of_not_converged c pr (calculated c D pr) hfalse
      cases j with
      | zero => exact absurd hcur (not_le.mpr hl1)
      | succ j2 =>
        have hstep : iterRounds c D (j2 + 1) pr
            = iterRounds c D j2 (calculated c D pr) := rfl
        rw [hstep] at hcur
        obtain ⟨r, hr⟩ := ih (calculated c D pr) j2 (Nat.lt_of_succ_lt_succ hj) hcur
        refine ⟨r, ?_⟩
        simp only [iterate_loop, hcv, if_false]
        exact hr

/-- On a valid non-empty corpus with damping in [0,1), some fuel makes
the convergence loop stop. -/
lemma iterate_loop_terminates (c : Corpus) (hc : ValidCorpus c) (hne : c ≠ [])
    {D : ℚ} (hD0 : 0 ≤ D) (hD1 : D < 1) (pr : PDist) :
    ∃ F r, iterate_loop c D F pr = some r := by
  by_cases h : curGap c D pr ≤ 1 / 1000
  · obtain ⟨r, hr⟩ := iterate_loop_of_conv c D 1 pr 0 Nat.zero_lt_one (by simpa [iterRounds] using h)
    exact ⟨1, r, hr⟩
  · have hpos : 0 < curGap c D pr := by
      have := not_le.mp h
      linarith
    obtain ⟨n, hn⟩ := exists_pow_lt_of_lt_one
      (x := (1 / 1000) / curGap c D pr) (by positivity) hD1
    have hmul : D ^ n * curGap c D pr < 1 / 1000 :=
      (lt_div_iff hpos).mp hn
    have hdecay := curGap_decay c hc hne hD0 n pr
    obtain ⟨r, hr⟩ := iterate_loop_of_conv c D (n + 1) pr n (Nat.lt_succ_self n)
      (le_of_lt (lt_of_le_of_lt hdecay hmul))
    exact ⟨n + 1, r, hr⟩

/-! ### The spec recurrence, the loop invariant, and termination -/

lemma linkers_sum (c : Corpus) (g : Page × List Page → ℚ) (P : Page) :
    ((linkers c P).map g).sum
      = (c.map (fun kv => if P ∈ kv.2 then g kv else 0)).sum := by
  unfold linkers
  induction c with
  | nil => simp
  | cons kv t ih =>
    by_cases h : P ∈ kv.2 <;>
      simp [List.filter_cons, h, ih]

lemma danglers_sum (c : Corpus) (g : Page × List Page → ℚ) :
    ((danglers c).map g).sum
      = (c.map (fun kv => if kv.2 = [] then g kv else 0)).sum := by
  unfold danglers
  induction c with
  | nil => simp
  | cons kv t ih =>
    by_cases h : kv.2 = [] <;>
      simp [List.filter_cons, h, ih]

lemma rankSum_init (c : Corpus) (hne : c ≠ []) :
    rankSum c (getV (c.map (fun kv => (kv.1, 1 / (c.length : ℚ))))) = 1 := by
  have hN : ((c.length : ℚ)) ≠ 0 := length_cast_ne_zero hne
  have h1 : rankSum c (getV (c.map (fun kv => (kv.1, 1 / (c.length : ℚ)))))
      = rankSum c (fun _ => 1 / (c.length : ℚ)) :=
    rankSum_congr c (fun p hp => getV_map_keyfun (fun _ => 1 / (c.length : ℚ)) c p hp)
  rw [h1, rankSum, qsum_map_const c (1 / (c.length : ℚ))]
  field_simp

/-- Each successful run of the loop returns a snapshot of total mass 1,
provided the staring snapshot has total mass 1. -/
lemma iterate_loop_sum (c : Corpus) (hc : ValidCorpus c) (hne : c ≠ []) (D : ℚ) :
    ∀ (fuel : ℕ) (pr r : PDist), iterate_loop c D fuel pr = some r →
      rankSum c (getV pr) = 1 → distSum r = 1 := by
  intro fuel
  induction fuel with
  | zero => intro pr r h; simp [iterate_loop] at h
  | succ f ih =>
    intro pr r h hsum
    by_cases hcv : converged c pr (calculated c D pr) = true
    · simp only [iterate_loop, hcv, if_true] at h
      obtain rfl : calculated c D pr = r := Option.some_inj.mp h
      rw [distSum_calculated, rankSum_iterate_round c hc hne, hsum]
      ring
    · simp only [iterate_loop, hcv, if_false] at h
      apply ih _ r h
      have h2 : rankSum c (getV (calculated c D pr))
          = rankSum c (iterate_round c D (getV pr)) :=
        rankSum_congr c (fun p hp => getV_calculated c D pr hp)
      rw [h2, rankSum_iterate_round c hc hne, hsum]
      ring

/-- C2: on a corpus satisfying the closed-universe invariant, each round
of `iterate_pagerank` computes every page's new rank from the previous
round's full snapshot only, as `(1-d)/N` plus `d` times the sum over
pages `Q` linking to `P` of `rank_old(Q)/outDegree(Q)`, plus `d` times
the sum over dangling pages `Q` of `rank_old(Q)/N`, the dangling term
entering every page's update; the loop applies this synchronous round to
the previous snapshot. -/
theorem C2_iterate_round_recurrence (c : Corpus) (D : ℚ) (hc : ValidCorpus c)
    (pr : PDist) (P : Page) (hP : P ∈ keys c) :
    getV (calculated c D pr) P
      = (1 - D) / (c.length : ℚ)
        + D * ((linkers c P).map (fun kv => getV pr kv.1 / (kv.2.length : ℚ))).sum
        + D * ((danglers c).map (fun kv => getV pr kv.1 / (c.length : ℚ))).sum
    ∧ ∀ f : ℕ, iterate_loop c D (f + 1) pr =
        (if converged c pr (calculated c D pr) then some (calculated c D pr)
         else iterate_loop c D f (calculated c D pr)) := by
  constructor
  · rw [getV_calculated c D pr hP, iterate_round_sum, qsum_map_add,
      linkers_sum c (fun kv => getV pr kv.1 / (kv.2.length : ℚ)) P,
      danglers_sum c (fun kv => getV pr kv.1 / (c.length : ℚ))]
    ring
  · intro f
    rfl

/-- Witness for C2 on the dangling three-page chain at page 2. -/
theorem C2_witness :
    getV (calculated [(0, [1]), (1, [2]), (2, [])] (85/100) [(0, 1/2), (1, 1/4), (2, 1/4)]) 2
      = (1 - 85/100) / ((List.length [(0, [1]), (1, [2]), (2, [])] : ℕ) : ℚ)
        + (85/100) * ((linkers [(0, [1]), (1, [2]), (2, [])] 2).map
            (fun kv => getV [(0, 1/2), (1, 1/4), (2, 1/4)] kv.1 / (kv.2.length : ℚ))).sum
        + (85/100) * ((danglers [(0, [1]), (1, [2]), (2, [])]).map
            (fun kv => getV [(0, 1/2), (1, 1/4), (2, 1/4)] kv.1
              / ((List.length [(0, [1]), (1, [2]), (2, [])] : ℕ) : ℚ))).sum
    ∧ ∀ f : ℕ, iterate_loop [(0, [1]), (1, [2]), (2, [])] (85/100) (f + 1)
          [(0, 1/2), (1, 1/4), (2, 1/4)] =
        (if converged [(0, [1]), (1, [2]), (2, [])] [(0, 1/2), (1, 1/4), (2, 1/4)]
            (calculated [(0, [1]), (1, [2]), (2, [])] (85/100) [(0, 1/2), (1, 1/4), (2, 1/4)])
         then some (calculated [(0, [1]), (1, [2]), (2, [])] (85/100) [(0, 1/2), (1, 1/4), (2, 1/4)])
         else iterate_loop [(0, [1]), (1, [2]), (2, [])] (85/100) f
            (calculated [(0, [1]), (1, [2]), (2, [])] (85/100) [(0, 1/2), (1, 1/4), (2, 1/4)])) :=
  C2_iterate_round_recurrence [(0, [1]), (1, [2]), (2, [])] (85/100)
    (by decide) [(0, 1/2), (1, 1/4), (2, 1/4)] 2 (by decide)

/-- C5: on every corpus satisfying the closed-universe invariant (and
non-empty, as the code divides by `N` up front) with damping factor in
(0,1), `iterate_pagerank` terminates: some fuel `F` makes it return a
result, and every larger fuel returns the same result, since the loop
stops by itself at the first round whose every page moved by at most
`0.001`; the returned dict is that round's snapshot. -/
theorem C5_iterate_pagerank_terminates (c : Corpus) (D : ℚ)
    (hc : ValidCorpus c) (hne : c ≠ []) (hD0 : 0 < D) (hD1 : D < 1) :
    ∃ F r, iterate_pagerank c D F = some r ∧
      (∀ f, F ≤ f → iterate_pagerank c D f = some r) ∧
      ∃ pr0, r = calculated c D pr0 ∧ converged c pr0 r = true := by
  obtain ⟨F, r, hF⟩ := iterate_loop_terminates c hc hne (le_of_lt hD0) hD1
    (c.map (fun kv => (kv.1, 1 / (c.length : ℚ))))
  refine ⟨F, r, hF, ?_, ?_⟩
  · intro f hf
    exact iterate_loop_ge c D hf hF
  · exact iterate_loop_sound c D F _ r hF

/-- Witness for C5 on the two-page cycle at damping 0.85. -/
theorem C5_witness :
    ∃ F r, iterate_pagerank [(0, [1]), (1, [0])] (85/100) F = some r ∧
      (∀ f, F ≤ f → iterate_pagerank [(0, [1]), (1, [0])] (85/100) f = some r) ∧
      ∃ pr0, r = calculated [(0, [1]), (1, [0])] (85/100) pr0 ∧
        converged [(0, [1]), (1, [0])] pr0 r = true :=
  C5_iterate_pagerank_terminates [(0, [1]), (1, [0])] (85/100)
    (by decide) (by decide) (by norm_num) (by norm_num)

lemma iterate_loop_step_false (c : Corpus) (D : ℚ) (f : ℕ) (pr : PDist)
    (h : converged c pr (calculated c D pr) = false) :
    iterate_loop c D (f + 1) pr = iterate_loop c D f (calculated c D pr) := by
  simp [iterate_loop, h]

lemma iterate_loop_step_true (c : Corpus) (D : ℚ) (f : ℕ) (pr : PDist)
    (h : converged c pr (calculated c D pr) = true) :
    iterate_loop c D (f + 1) pr = some (calculated c D pr) := by
  simp [iterate_loop, h]

/-- C8 counterexample: on the valid four-page graph
`{0: {}, 1: {0}, 2: {0}, 3: {1, 2}}` with damping factor `9/10`, the
convergence loop stops after seven rounds, yet one further synchronous
round moves page 0 by more than `0.001`: the returned assignment is not a
fixed point within the convergence tolerance, contradicting the claim. -/
theorem C8_counterexample :
    ValidCorpus [(0, []), (1, [0]), (2, [0]), (3, [1, 2])] ∧
    ((0 : ℚ) < 9/10 ∧ (9/10 : ℚ) < 1) ∧
    (iterate_pagerank [(0, []), (1, [0]), (2, [0]), (3, [1, 2])] (9/10) 20).map
      (fun r => converged [(0, []), (1, [0]), (2, [0]), (3, [1, 2])] r
        (calculated [(0, []), (1, [0]), (2, [0]), (3, [1, 2])] (9/10) r)) = some false := by
  refine ⟨by decide, ⟨by norm_num, by norm_num⟩, ?_⟩
  have e0 : iterate_pagerank [(0, []), (1, [0]), (2, [0]), (3, [1, 2])] (9/10) 20
      = iterate_loop [(0, []), (1, [0]), (2, [0]), (3, [1, 2])] (9/10) 20 [(0, 1/4), (1, 1/4), (2, 1/4), (3, 1/4)] := by
    norm_num [iterate_pagerank]
  have h0 : calculated [(0, []), (1, [0]), (2, [0]), (3, [1, 2])] (9/10) [(0, 1/4), (1, 1/4), (2, 1/4), (3, 1/4)]
      = [(0, 17/32), (1, 31/160), (2, 31/160), (3, 13/160)] := by
    norm_num [calculated, iterate_round, getV, List.cons_ne_nil]
  have c0 : converged [(0, []), (1, [0]), (2, [0]), (3, [1, 2])] [(0, 1/4), (1, 1/4), (2, 1/4), (3, 1/4)]
      (calculated [(0, []), (1, [0]), (2, [0]), (3, [1, 2])] (9/10) [(0, 1/4), (1, 1/4), (2, 1/4), (3, 1/4)])
      = false := by
    rw [h0]
    norm_num [converged, keys, getV, abs, max_def]
  have h1 : calculated [(0, []), (1, [0]), (2, [0]), (3, [1, 2])] (9/10) [(0, 17/32), (1, 31/160), (2, 31/160), (3, 13/160)]
      = [(0, 3157/6400), (1, 1159/6400), (2, 1159/6400), (3, 37/256)] := by
    norm_num [calculated, iterate_round, getV, List.cons_ne_nil]
  have c1 : converged [(0, []), (1, [0]), (2, [0]), (3, [1, 2])] [(0, 17/32), (1, 31/160), (2, 31/160), (3, 13/160)]
      (calculated [(0, []), (1, [0]), (2, [0]), (3, [1, 2])] (9/10) [(0, 17/32), (1, 31/160), (2, 31/160), (3, 13/160)])
      = false := by
    rw [h1]
    norm_num [converged, keys, getV, abs, max_def]
  have h2 : calculated [(0, []), (1, [0]), (2, [0]), (3, [1, 2])] (9/10) [(0, 3157/6400), (1, 1159/6400), (2, 1159/6400), (3, 37/256)]
      = [(0, 118261/256000), (1, 51463/256000), (2, 51463/256000), (3, 34813/256000)] := by
    norm_num [calculated, iterate_round, getV, List.cons_ne_nil]
  have c2 : converged [(0, []), (1, [0]), (2, [0]), (3, [1, 2])] [(0, 3157/6400), (1, 1159/6400), (2, 1159/6400), (3, 37/256)]
      (calculated [(0, []), (1, [0]), (2, [0]), (3, [1, 2])] (9/10) [(0, 3157/6400), (1, 1159/6400), (2, 1159/6400), (3, 37/256)])
      = false := by
    rw [h2]
    norm_num [converged, keys, getV, abs, max_def]
  have h3 : calculated [(0, []), (1, [0]), (2, [0]), (3, [1, 2])] (9/10) [(0, 118261/256000), (1, 51463/256000), (2, 51463/256000), (3, 34813/256000)]
      = [(0, 1005137/2048000), (1, 1946983/10240000), (2, 1946983/10240000), (3, 1320349/10240000)] := by
    norm_num [calculated, iterate_round, getV, List.cons_ne_nil]
  have c3 : converged [(0, []), (1, [0]), (2, [0]), (3, [1, 2])] [(0, 118261/256000), (1, 51463/256000), (2, 51463/256000), (3, 34813/256000)]
      (calculated [(0, []), (1, [0]), (2, [0]), (3, [1, 2])] (9/10) [(0, 118261/256000), (1, 51463/256000), (2, 51463/256000), (3, 34813/256000)])
      = false := by
    rw [h3]
    norm_num [converged, keys, getV, abs, max_def]
  have h4 : calculated [(0, []), (1, [0]), (2, [0]), (3, [1, 2])] (9/10) [(0, 1005137/2048000), (1, 1946983/10240000), (2, 1946983/10240000), (3, 1320349/10240000)]
      = [(0, 195653941/409600000), (1, 79237447/409600000), (2, 79237447/409600000), (3, 11094233/81920000)] := by
    norm_num [calculated, iterate_round, getV, List.cons_ne_nil]
  have c4 : converged [(0, []), (1, [0]), (2, [0]), (3, [1, 2])] [(0, 1005137/2048000), (1, 1946983/10240000), (2, 1946983/10240000), (3, 1320349/10240000)]
      (calculated [(0, []), (1, [0]), (2, [0]), (3, [1, 2])] (9/10) [(0, 1005137/2048000), (1, 1946983/10240000), (2, 1946983/10240000), (3, 1320349/10240000)])
      = false := by
    rw [h4]
    norm_num [converged, keys, getV, abs, max_def]
  have h5 : calculated [(0, []), (1, [0]), (2, [0]), (3, [1, 2])] (9/10) [(0, 195653941/409600000), (1, 79237447/409600000), (2, 79237447/409600000), (3, 11094233/81920000)]
      = [(0, 7875581653/16384000000), (1, 3168966439/16384000000), (2, 3168966439/16384000000), (3, 2170485469/16384000000)] := by
    norm_num [calculated, iterate_round, getV, List.cons_ne_nil]
  have c5 : converged [(0, []), (1, [0]), (2, [0]), (3, [1, 2])] [(0, 195653941/409600000), (1, 79237447/409600000), (2, 79237447/409600000), (3, 11094233/81920000)]
      (calculated [(0, []), (1, [0]), (2, [0]), (3, [1, 2])] (9/10) [(0, 195653941/409600000), (1, 79237447/409600000), (2, 79237447/409600000), (3, 11094233/81920000)])
      = false := by
    rw [h5]
    norm_num [converged, keys, getV, abs, max_def]
  have h6 : calculated [(0, []), (1, [0]), (2, [0]), (3, [1, 2])] (9/10) [(0, 7875581653/16384000000), (1, 3168966439/16384000000), (2, 3168966439/16384000000), (3, 2170485469/16384000000)]
      = [(0, 63085963697/131072000000), (1, 126332973319/655360000000), (2, 126332973319/655360000000), (3, 87264234877/655360000000)] := by
    norm_num [calculated, iterate_round, getV, List.cons_ne_nil]
  have c6 : converged [(0, []), (1, [0]), (2, [0]), (3, [1, 2])] [(0, 7875581653/16384000000), (1, 3168966439/16384000000), (2, 3168966439/16384000000), (3, 2170485469/16384000000)]
      (calculated [(0, []), (1, [0]), (2, [0]), (3, [1, 2])] (9/10) [(0, 7875581653/16384000000), (1, 3168966439/16384000000), (2, 3168966439/16384000000), (3, 2170485469/16384000000)])
      = true := by
    rw [h6]
    norm_num [converged, keys, getV, abs, max_def]
  have h7 : calculated [(0, []), (1, [0]), (2, [0]), (3, [1, 2])] (9/10) [(0, 63085963697/131072000000), (1, 126332973319/655360000000), (2, 126332973319/655360000000), (3, 87264234877/655360000000)]
      = [(0, 12590202445333/26214400000000), (1, 5064984594151/26214400000000), (2, 5064984594151/26214400000000), (3, 698845673273/5242880000000)] := by
    norm_num [calculated, iterate_round, getV, List.cons_ne_nil]
  have c7 : converged [(0, []), (1, [0]), (2, [0]), (3, [1, 2])] [(0, 63085963697/131072000000), (1, 126332973319/655360000000), (2, 126332973319/655360000000), (3, 87264234877/655360000000)]
      (calculated [(0, []), (1, [0]), (2, [0]), (3, [1, 2])] (9/10) [(0, 63085963697/131072000000), (1, 126332973319/655360000000), (2, 126332973319/655360000000), (3, 87264234877/655360000000)])
      = false := by
    rw [h7]
    norm_num [converged, keys, getV, abs, max_def]
  rw [e0]
  rw [show (20 : ℕ) = 19 + 1 from rfl, iterate_loop_step_false _ _ _ _ c0, h0]
  rw [show (19 : ℕ) = 18 + 1 from rfl, iterate_loop_step_false _ _ _ _ c1, h1]
  rw [show (18 : ℕ) = 17 + 1 from rfl, iterate_loop_step_false _ _ _ _ c2, h2]
  rw [show (17 : ℕ) = 16 + 1 from rfl, iterate_loop_step_false _ _ _ _ c3, h3]
  rw [show (16 : ℕ) = 15 + 1 from rfl, iterate_loop_step_false _ _ _ _ c4, h4]
  rw [show (15 : ℕ) = 14 + 1 from rfl, iterate_loop_step_false _ _ _ _ c5, h5]
  rw [show (14 : ℕ) = 13 + 1 from rfl, iterate_loop_step_true _ _ _ _ c6, h6]
  rw [Option.map_some', c7]

/-- C8 (amended): on every valid non-empty graph with damping factor in
(0,1), one additional synchronous round applied to the converged output
of `iterate_pagerank` changes every page's rank by at most
`dampingFactor * N * 0.001` (`N` the page count) — the per-page bound
`0.001` itself does not hold in general. -/
theorem C8_amended_fixed_point_bound (c : Corpus) (D : ℚ) (hc : ValidCorpus c)
    (hne : c ≠ []) (hD0 : 0 < D) (hD1 : D < 1) (fuel : ℕ) (r : PDist)
    (h : iterate_pagerank c D fuel = some r) :
    ∀ p ∈ keys c, |getV r p - getV (calculated c D r) p|
      ≤ D * (c.length : ℚ) * (1 / 1000) := by
  obtain ⟨pr0, hr, hcv⟩ := iterate_loop_sound c D fuel _ r h
  intro p hp
  have h1 : |getV r p - getV (calculated c D r) p|
      ≤ l1dist c (getV r) (getV (calculated c D r)) :=
    coord_le_l1dist c _ _ hp
  have h2 : l1dist c (getV r) (getV (calculated c D r))
      = l1dist c (iterate_round c D (getV pr0)) (iterate_round c D (getV r)) := by
    apply l1dist_congr c
    · intro q hq
      rw [hr]
      exact getV_calculated c D pr0 hq
    · intro q hq
      exact getV_calculated c D r hq
  have h3 := l1dist_iterate_round c hc hne (le_of_lt hD0) (getV pr0) (getV r)
  have h4 : l1dist c (getV pr0) (getV r) ≤ (c.length : ℚ) * (1 / 1000) := by
    unfold l1dist
    have hb : ∀ kv ∈ c, |getV pr0 kv.1 - getV r kv.1| ≤ 1 / 1000 := by
      intro kv hkv
      exact (converged_iff c pr0 r).mp hcv kv.1 (List.mem_map.mpr ⟨kv, hkv, rfl⟩)
    calc (c.map (fun kv => |getV pr0 kv.1 - getV r kv.1|)).sum
        ≤ (c.map (fun _ => (1 : ℚ) / 1000)).sum := qsum_map_le _ _ _ hb
      _ = (c.length : ℚ) * (1 / 1000) := qsum_map_const _ _
  calc |getV r p - getV (calculated c D r) p|
      ≤ l1dist c (iterate_round c D (getV pr0)) (iterate_round c D (getV r)) := by
        rw [← h2]; exact h1
    _ ≤ D * l1dist c (getV pr0) (getV r) := h3
    _ ≤ D * ((c.length : ℚ) * (1 / 1000)) :=
        mul_le_mul_of_nonneg_left h4 (le_of_lt hD0)
    _ = D * (c.length : ℚ) * (1 / 1000) := by ring

/-- Witness for the amended C8 on the two-page cycle, whose uniform
start is already a fixed point. -/
theorem C8_amended_witness :
    |getV [(0, (1 : ℚ)/2), (1, 1/2)] 0
        - getV (calculated [(0, [1]), (1, [0])] (85/100) [(0, 1/2), (1, 1/2)]) 0|
      ≤ (85/100) * ((List.length [(0, [1]), (1, [0])] : ℕ) : ℚ) * (1 / 1000) :=
  C8_amended_fixed_point_bound [(0, [1]), (1, [0])] (85/100)
    (by decide) (by decide) (by norm_num) (by norm_num) 1
    [(0, 1/2), (1, 1/2)]
    (by
      have h0 : calculated [(0, [1]), (1, [0])] (85/100) [(0, 1/2), (1, 1/2)]
          = [(0, 1/2), (1, 1/2)] := by
        norm_num [calculated, iterate_round, getV, List.cons_ne_nil]
      have c0 : converged [(0, [1]), (1, [0])] [(0, 1/2), (1, 1/2)]
          (calculated [(0, [1]), (1, [0])] (85/100) [(0, 1/2), (1, 1/2)]) = true := by
        rw [h0]
        norm_num [converged, keys, getV, abs, max_def]
      have e0 : iterate_pagerank [(0, [1]), (1, [0])] (85/100) 1
          = iterate_loop [(0, [1]), (1, [0])] (85/100) 1 [(0, 1/2), (1, 1/2)] := by
        norm_num [iterate_pagerank]
      rw [e0, show (1 : ℕ) = 0 + 1 from rfl,
        iterate_loop_step_true _ _ _ _ c0, h0])
    0 (by decide)

/-! ### The sampling estimator -/

lemma distSum_map_div (l : PDist) (q : ℚ) :
    distSum (l.map (fun kv => (kv.1, kv.2 / q))) = distSum l / q := by
  unfold distSum
  rw [List.map_map]
  induction l with
  | nil => simp
  | cons kv t ih =>
    simp only [List.map_cons, List.sum_cons, Function.comp] at ih ⊢
    rw [ih]
    ring

lemma addToKey_mem {l : PDist} {p : Page} {v : ℚ} {l2 : PDist}
    (h : addToKey l p v = some l2) : p ∈ l.map Prod.fst := by
  by_cases hp : p ∈ l.map Prod.fst
  · exact hp
  · rw [addToKey_eq_none v hp] at h
    cases h

/-- A successful `page_rank[sample_page] += 1` increments exactly the
current page's counter and leaves every other counter unchanged. -/
lemma addToKey_single_increment {l : PDist} {p : Page} {v : ℚ} {l2 : PDist}
    (h : addToKey l p v = some l2) :
    getV l2 p = getV l p + v ∧ ∀ q, q ≠ p → getV l2 q = getV l q := by
  have hp : p ∈ l.map Prod.fst := addToKey_mem h
  rw [addToKey_eq_some v hp] at h
  obtain rfl : l.map (fun kv => if kv.1 = p then (kv.1, kv.2 + v) else kv) = l2 :=
    Option.some_inj.mp h
  exact ⟨getV_update_self p v l hp, fun q hq => getV_update_ne p q v hq l⟩

/-- Master lemma for the sampling loop on a valid corpus: with every draw
landing inside the drawn distribution's key set, the loop never raises,
keeps the counter dict keyed exactly by the corpus pages, and adds
exactly one visit per iteration. -/
lemma sampleLoop_spec (c : Corpus) (d : ℚ) (draws : ℕ → PDist → Page)
    (hc : ValidCorpus c)
    (hdraws : ∀ i pd, pd ≠ [] → draws i pd ∈ pd.map Prod.fst) :
    ∀ (k i : ℕ) (p : Page) (cnt : PDist), p ∈ keys c →
      cnt.map Prod.fst = keys c →
      ∃ pout cout, sampleLoop c d draws k i p cnt = some (pout, cout) ∧
        cout.map Prod.fst = keys c ∧
        distSum cout = distSum cnt + (k : ℚ) := by
  intro k
  induction k with
  | zero =>
    intro i p cnt _ hkeys
    exact ⟨p, cnt, rfl, hkeys, by simp⟩
  | succ k ih =>
    intro i p cnt hp hkeys
    have hpcnt : p ∈ cnt.map Prod.fst := by rw [hkeys]; exact hp
    have hnodup : (cnt.map Prod.fst).Nodup := by rw [hkeys]; exact hc.1
    have hadd := addToKey_eq_some (l := cnt) (p := p) 1 hpcnt
    set cnt2 := cnt.map (fun kv => if kv.1 = p then (kv.1, kv.2 + 1) else kv) with hcnt2
    have hkeys2 : cnt2.map Prod.fst = keys c := by
      rw [hcnt2, keys_update]
      exact hkeys
    have hsum2 : distSum cnt2 = distSum cnt + 1 := by
      rw [hcnt2, distSum_update p 1 cnt hnodup, if_pos hpcnt]
    obtain ⟨_, pd, _, _, htm, hpdkeys, _, _⟩ := transition_model_spec c p d hc hp
    have hpdne : pd ≠ [] := by
      intro hnil
      rw [hnil] at hpdkeys
      have : c = [] := by
        have := hpdkeys.symm
        simpa [keys, List.map_eq_nil] using this
      rw [this] at hp
      cases hp
    have hnext : draws i pd ∈ keys c := by
      rw [← hpdkeys]
      exact hdraws i pd hpdne
    obtain ⟨pout, cout, hloop, hkeys3, hsum3⟩ := ih (i + 1) (draws i pd) cnt2 hnext hkeys2
    refine ⟨pout, cout, ?_, hkeys3, ?_⟩
    · show (do
        let cnt' ← addToKey cnt p 1
        let pd2 ← transition_model c p d
        sampleLoop c d draws k (i + 1) (draws i pd2) cnt') = some (pout, cout)
      rw [hadd, htm]
      simpa using hloop
    · rw [hsum3, hsum2]
      push_cast
      ring

/-- C6: on every valid non-empty graph, start key, damping factor in
(0,1), and `sampleCount = n ≥ 1`, the sampling loop of `sample_pagerank`
runs exactly `n - 1` iterations without error, each iteration adding 1 to
exactly the current page's counter, so the counters total `n - 1`; the
returned assignment is every counter divided by `n`, hence of total
`(n-1)/n`. -/
theorem C6_sample_visit_counting (c : Corpus) (d : ℚ) (n : ℕ) (start : Page)
    (draws : ℕ → PDist → Page) (hc : ValidCorpus c) (hne : c ≠ [])
    (hd0 : 0 < d) (hd1 : d < 1) (hstart : start ∈ keys c)
    (hdraws : ∀ i pd, pd ≠ [] → draws i pd ∈ pd.map Prod.fst) (hn : 1 ≤ n) :
    ∃ pend cnt,
      sampleLoop c d draws (n - 1) 1 start (c.map (fun kv => (kv.1, 0)))
        = some (pend, cnt) ∧
      cnt.map Prod.fst = keys c ∧
      distSum cnt = ((n - 1 : ℕ) : ℚ) ∧
      sample_pagerank c d n start draws
        = some (cnt.map (fun kv => (kv.1, kv.2 / (n : ℚ)))) ∧
      distSum (cnt.map (fun kv => (kv.1, kv.2 / (n : ℚ))))
        = ((n - 1 : ℕ) : ℚ) / (n : ℚ) ∧
      (∀ (m m2 : PDist) (q : Page) (v : ℚ), addToKey m q v = some m2 →
        getV m2 q = getV m q + v ∧ ∀ q2, q2 ≠ q → getV m2 q2 = getV m q2) := by
  have hkeys0 : (c.map (fun kv => (kv.1, (0 : ℚ)))).map Prod.fst = keys c :=
    keys_map_keyfun (fun _ => (0 : ℚ)) c
  have hsum0 : distSum (c.map (fun kv => (kv.1, (0 : ℚ)))) = 0 := by
    unfold distSum
    rw [List.map_map]
    have : (Prod.snd ∘ fun kv : Page × List Page => (kv.1, (0 : ℚ)))
        = fun _ => (0 : ℚ) := rfl
    rw [this, qsum_map_const]
    ring
  obtain ⟨pend, cnt, hloop, hkeys, hsum⟩ :=
    sampleLoop_spec c d draws hc hdraws (n - 1) 1 start
      (c.map (fun kv => (kv.1, 0))) hstart hkeys0
  refine ⟨pend, cnt, hloop, hkeys, ?_, ?_, ?_, ?_⟩
  · rw [hsum, hsum0, zero_add]
  · simp only [sample_pagerank, hloop]
    rfl
  · rw [distSum_map_div, hsum, hsum0, zero_add]
  · intro m m2 q v h
    exact addToKey_single_increment h

/-- Witness for C6 on the two-page cycle with three samples drawn along
the deterministic first-keyed draw. -/
theorem C6_witness :
    ∃ pend cnt,
      sampleLoop [(0, [1]), (1, [0])] (85/100) (fun _ pd => (pd.map Prod.fst).headD 0)
          (3 - 1) 1 0 (([(0, [1]), (1, [0])] : Corpus).map (fun kv => (kv.1, 0)))
        = some (pend, cnt) ∧
      cnt.map Prod.fst = keys [(0, [1]), (1, [0])] ∧
      distSum cnt = ((3 - 1 : ℕ) : ℚ) ∧
      sample_pagerank [(0, [1]), (1, [0])] (85/100) 3 0
          (fun _ pd => (pd.map Prod.fst).headD 0)
        = some (cnt.map (fun kv => (kv.1, kv.2 / ((3 : ℕ) : ℚ)))) ∧
      distSum (cnt.map (fun kv => (kv.1, kv.2 / ((3 : ℕ) : ℚ))))
        = ((3 - 1 : ℕ) : ℚ) / ((3 : ℕ) : ℚ) ∧
      (∀ (m m2 : PDist) (q : Page) (v : ℚ), addToKey m q v = some m2 →
        getV m2 q = getV m q + v ∧ ∀ q2, q2 ≠ q → getV m2 q2 = getV m q2) :=
  C6_sample_visit_counting [(0, [1]), (1, [0])] (85/100) 3 0
    (fun _ pd => (pd.map Prod.fst).headD 0)
    (by decide) (by decide) (by norm_num) (by norm_num) (by decide)
    (by
      intro i pd hne2
      cases pd with
      | nil => exact absurd rfl hne2
      | cons kv t => simp)
    (by norm_num)

/-- C4: on every valid non-empty graph with damping in (0,1), start key,
and draws inside the drawn distributions, `sample_pagerank` at
`sampleCount = 10000` returns a rank assignment whose total is within
`1e-2` of 1 for every outcome of the draws (it is exactly `9999/10000`),
and `iterate_pagerank`, whenever it returns, returns a rank assignment
whose total is exactly 1 in exact arithmetic. -/
theorem C4_rank_totals (c : Corpus) (d : ℚ) (start : Page)
    (draws : ℕ → PDist → Page) (hc : ValidCorpus c) (hne : c ≠ [])
    (hd0 : 0 < d) (hd1 : d < 1) (hstart : start ∈ keys c)
    (hdraws : ∀ i pd, pd ≠ [] → draws i pd ∈ pd.map Prod.fst) :
    (∃ res, sample_pagerank c d 10000 start draws = some res ∧
      |distSum res - 1| ≤ 1 / 100) ∧
    (∀ fuel r, iterate_pagerank c d fuel = some r → distSum r = 1) := by
  constructor
  · have hkeys0 : (c.map (fun kv => (kv.1, (0 : ℚ)))).map Prod.fst = keys c :=
      keys_map_keyfun (fun _ => (0 : ℚ)) c
    have hsum0 : distSum (c.map (fun kv => (kv.1, (0 : ℚ)))) = 0 := by
      unfold distSum
      rw [List.map_map]
      have : (Prod.snd ∘ fun kv : Page × List Page => (kv.1, (0 : ℚ)))
          = fun _ => (0 : ℚ) := rfl
      rw [this, qsum_map_const]
      ring
    obtain ⟨pend, cnt, hloop, hkeys, hsum⟩ :=
      sampleLoop_spec c d draws hc hdraws (10000 - 1) 1 start
        (c.map (fun kv => (kv.1, 0))) hstart hkeys0
    refine ⟨cnt.map (fun kv => (kv.1, kv.2 / ((10000 : ℕ) : ℚ))), ?_, ?_⟩
    · simp only [sample_pagerank, hloop]
      rfl
    · rw [distSum_map_div, hsum, hsum0, zero_add]
      norm_num [abs, max_def]
  · intro fuel r h
    exact iterate_loop_sum c hc hne d fuel _ r h (rankSum_init c hne)

/-- Witness for C4 on the two-page cycle with the first-keyed draw. -/
theorem C4_witness :
    (∃ res, sample_pagerank [(0, [1]), (1, [0])] (85/100) 10000 0
        (fun _ pd => (pd.map Prod.fst).headD 0) = some res ∧
      |distSum res - 1| ≤ 1 / 100) ∧
    (∀ fuel r, iterate_pagerank [(0, [1]), (1, [0])] (85/100) fuel = some r →
      distSum r = 1) :=
  C4_rank_totals [(0, [1]), (1, [0])] (85/100) 0
    (fun _ pd => (pd.map Prod.fst).headD 0)
    (by decide) (by decide) (by norm_num) (by norm_num) (by decide)
    (by
      intro i pd hne2
      cases pd with
      | nil => exact absurd rfl hne2
      | cons kv t => simp)

/-- C10: for every non-empty graph, damping factor, start page, and every
outcome of the draws, `sample_pagerank` with `sampleCount = 1` performs no
loop iteration, leaves all counters at 0, and returns the all-zero rank
assignment (total 0, not 1). -/
theorem C10_sample_count_one (c : Corpus) (d : ℚ) (start : Page)
    (draws : ℕ → PDist → Page) (hne : c ≠ []) :
    sample_pagerank c d 1 start draws = some (c.map (fun kv => (kv.1, 0))) ∧
    distSum (c.map (fun kv => (kv.1, (0 : ℚ)))) = 0 := by
  constructor
  · have h0 : sampleLoop c d draws (1 - 1) 1 start (c.map (fun kv => (kv.1, 0)))
        = some (start, c.map (fun kv => (kv.1, 0))) := rfl
    simp only [sample_pagerank, h0]
    show some ((c.map (fun kv => (kv.1, (0 : ℚ)))).map
      (fun kv => (kv.1, kv.2 / ((1 : ℕ) : ℚ)))) = _
    rw [List.map_map]
    have hmc : ((fun kv : Page × ℚ => (kv.1, kv.2 / ((1 : ℕ) : ℚ)))
          ∘ (fun kv : Page × List Page => (kv.1, (0 : ℚ))))
        = fun kv : Page × List Page => (kv.1, (0 : ℚ)) := by
      funext kv
      show (kv.1, (0 : ℚ) / ((1 : ℕ) : ℚ)) = (kv.1, (0 : ℚ))
      norm_num
    rw [hmc]
  · unfold distSum
    rw [List.map_map]
    have : (Prod.snd ∘ fun kv : Page × List Page => (kv.1, (0 : ℚ)))
        = fun _ => (0 : ℚ) := rfl
    rw [this, qsum_map_const]
    ring

/-- Witness for C10 on the two-page cycle. -/
theorem C10_witness :
    sample_pagerank [(0, [1]), (1, [0])] (85/100) 1 0 (fun _ _ => 0)
      = some (([(0, [1]), (1, [0])] : Corpus).map (fun kv => (kv.1, 0))) ∧
    distSum (([(0, [1]), (1, [0])] : Corpus).map (fun kv => (kv.1, (0 : ℚ)))) = 0 :=
  C10_sample_count_one [(0, [1]), (1, [0])] (85/100) 0 (fun _ _ => 0) (by decide)

/-- C7 counterexample: on the single-page graph with damping 0.85 and
`sampleCount = 1` (an allowed sample count, with any outcome of the
draws), `sample_pagerank` returns rank 0 for the page, not 1.0: the
counters total `sampleCount - 1 = 0` and are divided by 1. -/
theorem C7_counterexample :
    ValidCorpus [(0, ([] : List Page))] ∧ (1 : ℕ) ≤ 1 ∧
    sample_pagerank [(0, [])] (85/100) 1 0 (fun _ _ => 0) = some [(0, 0)] ∧
    getV [(0, (0 : ℚ))] 0 ≠ 1 := by
  refine ⟨by decide, le_refl 1, ?_, by norm_num [getV]⟩
  have h0 : sampleLoop [(0, [])] (85/100) (fun _ _ => 0) (1 - 1) 1 0
      (([(0, [])] : Corpus).map (fun kv => (kv.1, 0)))
      = some (0, ([(0, [])] : Corpus).map (fun kv => (kv.1, 0))) := rfl
  simp only [sample_pagerank, h0]
  norm_num

/-- On the single dangling page the whole random walk stays at that page:
each of the `k` remaining iterations increments its counter by one. -/
lemma sampleLoop_single (p : Page) (d : ℚ) (draws : ℕ → PDist → Page)
    (hdraws : ∀ i pd, pd ≠ [] → draws i pd ∈ pd.map Prod.fst) :
    ∀ (k i : ℕ) (v : ℚ),
      sampleLoop [(p, [])] d draws k i p [(p, v)] = some (p, [(p, v + (k : ℚ))]) := by
  intro k
  induction k with
  | zero => intro i v; simp [sampleLoop]
  | succ k ih =>
    intro i v
    have hadd : addToKey [(p, v)] p 1 = some [(p, v + 1)] := by
      simp [addToKey]
    have htm : transition_model [(p, ([] : List Page))] p d
        = some [(p, 1 / ((List.length [(p, ([] : List Page))] : ℕ) : ℚ))] := by
      simp [transition_model, lookupLinks]
    have hdraw : draws i [(p, 1 / ((List.length [(p, ([] : List Page))] : ℕ) : ℚ))] = p := by
      have := hdraws i [(p, 1 / ((List.length [(p, ([] : List Page))] : ℕ) : ℚ))]
        (by simp)
      simpa using this
    show (do
      let cnt' ← addToKey [(p, v)] p 1
      let pd ← transition_model [(p, [])] p d
      sampleLoop [(p, [])] d draws k (i + 1) (draws i pd) cnt') = _
    rw [hadd, htm]
    show sampleLoop [(p, [])] d draws k (i + 1)
      (draws i [(p, 1 / ((List.length [(p, ([] : List Page))] : ℕ) : ℚ))]) [(p, v + 1)] = _
    rw [hdraw, ih (i + 1) (v + 1)]
    have : v + 1 + (k : ℚ) = v + ((k + 1 : ℕ) : ℚ) := by
      push_cast
      ring
    rw [this]

/-- C7 (amended): on a single-page graph with no outgoing links and
damping in (0,1), `iterate_pagerank` converges in one round to rank
exactly 1.0 for the page, while `sample_pagerank` returns rank exactly
`(sampleCount - 1)/sampleCount` for it (0 at `sampleCount = 1`, never
1.0), for every outcome of the random draws. -/
theorem C7_amended_single_page (p : Page) (d : ℚ) (n : ℕ) (start : Page)
    (draws : ℕ → PDist → Page) (hd0 : 0 < d) (hd1 : d < 1) (hn : 1 ≤ n)
    (hstart : start ∈ keys [(p, ([] : List Page))])
    (hdraws : ∀ i pd, pd ≠ [] → draws i pd ∈ pd.map Prod.fst) :
    (∃ r, iterate_pagerank [(p, [])] d 1 = some r ∧ getV r p = 1) ∧
    (∃ s, sample_pagerank [(p, [])] d n start draws = some s ∧
      getV s p = ((n - 1 : ℕ) : ℚ) / (n : ℚ)) := by
  have hstart2 : start = p := by
    simpa [keys] using hstart
  subst hstart2
  constructor
  · have hval : iterate_round [(start, ([] : List Page))] d
        (getV [(start, 1 / ((List.length [(start, ([] : List Page))] : ℕ) : ℚ))]) start
        = 1 := by
      simp [iterate_round, getV]
    have hcalc : calculated [(start, ([] : List Page))] d
        ([(start, ([] : List Page))].map
          (fun kv => (kv.1, 1 / ((List.length [(start, ([] : List Page))] : ℕ) : ℚ))))
        = [(start, 1)] := by
      unfold calculated
      simp only [List.map_cons, List.map_nil]
      rw [hval]
    have hcv : converged [(start, ([] : List Page))]
        ([(start, ([] : List Page))].map
          (fun kv => (kv.1, 1 / ((List.length [(start, ([] : List Page))] : ℕ) : ℚ))))
        (calculated [(start, ([] : List Page))] d
          ([(start, ([] : List Page))].map
            (fun kv => (kv.1, 1 / ((List.length [(start, ([] : List Page))] : ℕ) : ℚ)))))
        = true := by
      rw [hcalc]
      norm_num [converged, keys, getV, abs, max_def]
    refine ⟨[(start, 1)], ?_, by simp [getV]⟩
    show iterate_loop [(start, [])] d 1
      ([(start, ([] : List Page))].map
        (fun kv => (kv.1, 1 / ((List.length [(start, ([] : List Page))] : ℕ) : ℚ)))) = _
    rw [show (1 : ℕ) = 0 + 1 from rfl, iterate_loop_step_true _ _ _ _ hcv, hcalc]
  · have hloop := sampleLoop_single start d draws hdraws (n - 1) 1 0
    refine ⟨[(start, (0 + ((n - 1 : ℕ) : ℚ)) / (n : ℚ))], ?_, ?_⟩
    · simp only [sample_pagerank, List.map_cons, List.map_nil, hloop]
      rfl
    · simp [getV]

/-- Witness for the amended C7 on a concrete single page with three
samples. -/
theorem C7_amended_witness :
    (∃ r, iterate_pagerank [(5, ([] : List Page))] (85/100) 1 = some r ∧
      getV r 5 = 1) ∧
    (∃ s, sample_pagerank [(5, [])] (85/100) 3 5
        (fun _ pd => (pd.map Prod.fst).headD 0) = some s ∧
      getV s 5 = ((3 - 1 : ℕ) : ℚ) / ((3 : ℕ) : ℚ)) :=
  C7_amended_single_page 5 (85/100) 3 5 (fun _ pd => (pd.map Prod.fst).headD 0)
    (by norm_num) (by norm_num) (by norm_num) (by decide)
    (by
      intro i pd h
      cases pd with
      | nil => exact absurd rfl h
      | cons kv t => simp)
